import Mathlib

/-!
Verification of the arXiv PDF translator script (`script.py`).

The script downloads an arXiv paper's LaTeX source, splits every `.tex`
file into fixed-size line chunks, translates each chunk through a remote
chat-completion service in a bounded thread pool, reassembles the
translated chunks in chunk-index order, and recompiles the paper.

This development gives a shallow embedding of the script's pure logic:
strings are modelled as `List Char` where character-level scanning
matters, files as records, the remote transformer as an oracle from
attempt number to response, and the file system as a function from
paths to optional contents.
-/

namespace ArxivTranslator

/-- The character `{` (written via its code point to keep string
scanning simple). -/
def lbrace : Char := Char.ofNat 123

/-- The character `}`. -/
def rbrace : Char := Char.ofNat 125

/-- `isPre needle hs` holds when `needle` is an initial segment of `hs`;
models Python's `str.startswith` on character lists. -/
def isPre : List Char → List Char → Bool
  | [], _ => true
  | _ :: _, [] => false
  | a :: as, b :: bs => a = b && isPre as bs

/-- `containsTok needle hs` holds when `needle` occurs as a contiguous
substring of `hs`; models Python's `needle in hs`. -/
def containsTok (needle : List Char) : List Char → Bool
  | [] => isPre needle []
  | c :: cs => isPre needle (c :: cs) || containsTok needle cs

/-! ## Chunker (`chunk_lines_safely`, script.py lines 275-306)

The source accumulates lines into `current_chunk`, flushing whenever
`current_line_count >= lines_per_chunk`, and appends any non-empty
remainder as a final chunk. -/

/-- Loop body of `chunk_lines_safely`: `cur` is `current_chunk`, `c` is
`current_line_count`. -/
def chunkGo (k : Nat) : List String → List String → Nat → List (List String)
  | [], cur, _ => if cur.isEmpty then [] else [cur]
  | l :: ls, cur, c =>
    if c + 1 ≥ k then (cur ++ [l]) :: chunkGo k ls [] 0
    else chunkGo k ls (cur ++ [l]) (c + 1)

/-- `chunk_lines_safely lines k` splits `lines` into chunks of `k` lines,
with a shorter final chunk when `k` does not divide the length.
Direct translation of `chunk_lines_safely(lines, lines_per_chunk)`. -/
def chunk_lines_safely (lines : List String) (k : Nat) : List (List String) :=
  chunkGo k lines [] 0

/-! ## Translation client (`translate_text`, script.py lines 33-132)

`translate_text` issues up to `retry_attempts = 3` chat-completion
requests. Each attempt either raises an exception somewhere in the
request/JSON-parse path (the `except` branch) or yields a parsed
`translate.lines` list. A parsed list whose length differs from the
input chunk size is discarded and the loop continues; an exception on
the last attempt is re-raised; running off the end of the loop raises
`Exception("Translation failed after multiple attempts.")`.

The remote service is modelled as an oracle from the 0-based attempt
number to the outcome of that attempt. -/

/-- Outcome of one transformer attempt as observed by `translate_text`:
an exception (network error, malformed JSON, missing keys, ...) or a
successfully parsed `translate.lines` list. -/
inductive TransResp where
  | err : String → TransResp
  | resp : List String → TransResp
deriving DecidableEq

/-- The fixed retry bound of `translate_text` (`retry_attempts = 3`). -/
def retry_attempts : Nat := 3

/-- `accepts r cs` holds when attempt outcome `r` is a parsed line list
whose length equals the input chunk size `cs` — exactly the condition
under which `translate_text` accepts a response. -/
def accepts (r : TransResp) (cs : Nat) : Bool :=
  match r with
  | .err _ => false
  | .resp ls => ls.length == cs

/-- The retry loop of `translate_text`: `rem` is the number of attempts
remaining and `attempt` the current 0-based attempt index (so
`rem + attempt = retry_attempts` at every call). Mirrors lines 42-132:
a wrong-length response falls through to the next attempt, an exception
on the last attempt (`rem = 0` remaining afterwards) is re-raised, and
exhaustion raises the final exception. -/
def translateGo (oracle : Nat → TransResp) (chunkSize : Nat) :
    Nat → Nat → Except String String
  | 0, _ => .error "Translation failed after multiple attempts."
  | rem + 1, attempt =>
    match oracle attempt with
    | .err e => if rem = 0 then .error e else translateGo oracle chunkSize rem (attempt + 1)
    | .resp ls =>
      if ls.length = chunkSize then .ok (String.join ls)
      else translateGo oracle chunkSize rem (attempt + 1)

/-- `translate_text` (lines 33-132), abstracted over the remote service:
`.ok` is a normal return, `.error` a raised exception. -/
def translate_text (oracle : Nat → TransResp) (chunkSize : Nat) : Except String String :=
  translateGo oracle chunkSize retry_attempts 0

/-- The worker closure `translate_chunk` (lines 237-251): it calls
`translate_text` on the chunk (with `chunk_size = len(chunk)`) and, when
that raises, substitutes the chunk's original joined lines. File paths
are character lists. -/
def translate_chunk (oracle : Nat → TransResp) (filePath : List Char) (chunkIdx : Nat)
    (chunk : List String) : List Char × Nat × String :=
  match translate_text oracle chunk.length with
  | .ok t => (filePath, chunkIdx, t)
  | .error _ => (filePath, chunkIdx, String.join chunk)

/-! ## Reassembly (`process_and_translate_tex_files`, lines 256-272)

For each document, the per-chunk results `(chunk_idx, translated_chunk)`
are sorted by chunk index and concatenated. Python's `sorted` is a
stable comparison sort on the key `x[0]`; insertion sort is likewise a
stable sort for the same key order. -/

/-- `sorted(chunks, key=lambda x: x[0])` (line 265). -/
def sortResults (rs : List (Nat × String)) : List (Nat × String) :=
  List.insertionSort (fun a b => a.1 ≤ b.1) rs

/-- The content written back for one document (lines 265-269):
concatenation of the translated chunks in ascending chunk-index order. -/
def mergeDocument (rs : List (Nat × String)) : String :=
  String.join ((sortResults rs).map Prod.snd)

/-- A transformer oracle that fails every attempt (used to witness the
error paths). -/
def wBad : Nat → TransResp := fun _ => TransResp.err "boom"

/-- A transformer oracle that answers the first attempt with a two-line
response (used to witness the success path). -/
def wGood : Nat → TransResp := fun i =>
  if i = 0 then TransResp.resp ["x", "y"] else TransResp.err "late"

/-! ## `extract_arxiv_id` (script.py lines 17-22)

`url.split('/')[-1] if 'arxiv.org' in url else url`. -/

/-- Python's `str.split('/')`: split on every slash, keeping empty
segments; always returns at least one segment. -/
def splitSlash : List Char → List (List Char)
  | [] => [[]]
  | c :: cs =>
    match splitSlash cs with
    | [] => [[]]
    | t :: ts => if c = '/' then [] :: t :: ts else (c :: t) :: ts

/-- Python's `lst[-1]` on the (always non-empty) result of a split. -/
def pyLast (l : List (List Char)) : List Char := l.getLastD []

/-- `extract_arxiv_id` (lines 17-22): when the input contains
`arxiv.org`, the part after the last `/`; otherwise the input
unchanged. -/
def extract_arxiv_id (url : List Char) : List Char :=
  if containsTok (String.data "arxiv.org") url then pyLast (splitSlash url) else url

/-- The claim's independent description of the slash behaviour: the
suffix of the string strictly after its last `/` character. -/
def afterLastSlash (url : List Char) : List Char :=
  (url.reverse.takeWhile (fun c => c ≠ '/')).reverse

/-! ## Markup guard (`remove_latex_commands`, script.py lines 25-30)

The only text transformation applied before transmission (line 38,
`cleaned_text = remove_latex_commands(text)`) is the deletion of CJK*
environment delimiters: `re.sub(r'\\begin\{CJK\*\}\{.*?\}\{.*?\}', '', text)`
followed by `re.sub(r'\\end\{CJK\*\}', '', text)`. No function is
applied to the transformer's response on the way back, so the restore
direction of the spec's protect/restore pair is the identity. -/

/-- The literal prefix of the begin pattern: the characters of
`\begin{CJK*}{`. -/
def beginLit : List Char := String.data "\\begin\x7bCJK*\x7d\x7b"

/-- The literal end pattern: the characters of `\end{CJK*}`. -/
def endLit : List Char := String.data "\\end\x7bCJK*\x7d"

/-- Lazy `.*?\}`: the number of characters consumed up to and including
the first `}` reachable without crossing a newline (`.` does not match
newline in Python's default mode), if any. -/
def findClose : List Char → Option Nat
  | [] => none
  | c :: cs =>
    if c = rbrace then some 1
    else if c = '\n' then none
    else (findClose cs).map (· + 1)

/-- Backtracking match of the pattern tail `.*?\}\{.*?\}` against `cs`,
returning the number of characters consumed: the first lazy group grows
one character at a time (never across a newline) until a `}` immediately
followed by `{` admits a match of the second lazy group. -/
def findAB : List Char → Option Nat
  | [] => none
  | c :: cs =>
    if c = rbrace then
      match cs with
      | d :: cs2 =>
        if d = lbrace then
          match findClose cs2 with
          | some j => some (2 + j)
          | none => (findAB cs).map (· + 1)
        else (findAB cs).map (· + 1)
      | [] => none
    else if c = '\n' then none
    else (findAB cs).map (· + 1)

/-- Length of a match of the full begin pattern at the head of `hs`. -/
def matchBegin (hs : List Char) : Option Nat :=
  if isPre beginLit hs then (findAB (hs.drop beginLit.length)).map (· + beginLit.length)
  else none

/-- The `re.sub` scan for the begin pattern with empty replacement: at
each position a match is deleted and scanning resumes after it,
otherwise one character is kept. The fuel argument (instantiated with
the input length) bounds the recursion; every step consumes at least one
character. -/
def subBegin : Nat → List Char → List Char
  | 0, hs => hs
  | fuel + 1, hs =>
    match hs with
    | [] => []
    | c :: cs =>
      match matchBegin (c :: cs) with
      | some m => subBegin fuel ((c :: cs).drop m)
      | none => c :: subBegin fuel cs

/-- The `re.sub` scan for a literal token with empty replacement. -/
def removeTok (needle : List Char) : Nat → List Char → List Char
  | 0, hs => hs
  | fuel + 1, hs =>
    match hs with
    | [] => []
    | c :: cs =>
      if isPre needle (c :: cs) then removeTok needle fuel ((c :: cs).drop needle.length)
      else c :: removeTok needle fuel cs

/-- `remove_latex_commands` (lines 25-30): delete every
`\begin{CJK*}{..}{..}` match, then every literal `\end{CJK*}`. -/
def remove_latex_commands (text : List Char) : List Char :=
  removeTok endLit (subBegin text.length text).length (subBegin text.length text)

/-! ## Main-file selection (`find_main_tex_file`, lines 320-356, and
`compile_main_tex`, lines 359-368) -/

/-- A file as seen by the compilation stage: path, full contents, and
on-disk byte size (`os.path.getsize`). -/
structure TexFile where
  name : List Char
  contents : List Char
  size : Nat
deriving DecidableEq

/-- `file.endswith(".tex")`. -/
def endsWithTex (name : List Char) : Bool :=
  isPre (String.data "xet.") name.reverse

/-- The walk filter of the compilation stage (line 327):
`file.endswith(".tex") and "_original" not in file`. -/
def texCandidate (name : List Char) : Bool :=
  endsWithTex name && !(containsTok (String.data "_original") name)

/-- The main-candidate test (lines 336-338): contents contain
`\documentclass` and at least one of `\begin{document}`, `\usepackage`,
`\title`, `\author`. -/
def isMainCandidate (contents : List Char) : Bool :=
  containsTok (String.data "\\documentclass") contents &&
    (containsTok (String.data "\\begin\x7bdocument\x7d") contents ||
     containsTok (String.data "\\usepackage") contents ||
     containsTok (String.data "\\title") contents ||
     containsTok (String.data "\\author") contents)

/-- Python's `max(candidate_files, key=os.path.getsize, default=None)`:
the first maximum by size, `none` on an empty list. -/
def maxBySize : List TexFile → Option TexFile
  | [] => none
  | f :: fs => some (fs.foldl (fun acc g => if g.size > acc.size then g else acc) f)

/-- `find_main_tex_file` (lines 320-356) over the walked file list:
first file passing both tests if any, else the largest candidate by
size, else `none`. -/
def find_main_tex_file (files : List TexFile) : Option TexFile :=
  match (files.filter (fun f => texCandidate f.name)).filter
      (fun f => isMainCandidate f.contents) with
  | m :: _ => some m
  | [] => maxBySize (files.filter (fun f => texCandidate f.name))

/-- `compile_main_tex` (lines 359-368): the compiler is invoked exactly
on the selected main file; `none` models "Main .tex file not found.
Compilation aborted." with no compiler invocation. -/
def compile_main_tex (files : List TexFile) : Option (List Char) :=
  (find_main_tex_file files).map (fun f => f.name)

/-- A root file satisfying both selection conditions. -/
def fMain7 : TexFile :=
  ⟨String.data "main.tex",
   String.data "\\documentclass\x7barticle\x7d\\title\x7bT\x7d\\begin\x7bdocument\x7dhi",
   52⟩

/-- A file containing only a document-class declaration (no
document-begin marker, style inclusion, title, or author). -/
def fA7 : TexFile :=
  ⟨String.data "a.tex", String.data "\\documentclass\x7barticle\x7d", 23⟩

/-- A larger plain include fragment with no document-class
declaration. -/
def fB7 : TexFile :=
  ⟨String.data "b.tex",
   String.data "just a long include fragment with plenty of text inside", 56⟩

/-! ## Progress counter (`translate_chunk`, lines 234-253)

`translate_chunk` executes `completed_chunks += 1` on a `nonlocal`
variable shared by all pool threads with no lock around it. At the
interpreter level that statement is a read of the shared counter
followed by a write of the read value plus one, and a thread switch may
occur between the two bytecode operations. The model below runs two
such increment threads under an explicit interleaving schedule. -/

/-- State of one incrementing worker: not yet started, holding the value
it read, or finished. -/
inductive CounterThread where
  | start
  | loaded (v : Nat)
  | done
deriving DecidableEq

/-- One interpreter step of `completed_chunks += 1` for one thread: from
`start` it reads the shared counter, from `loaded v` it writes
`v + 1`. -/
def counterStep (shared : Nat) : CounterThread → Nat × CounterThread
  | .start => (shared, .loaded shared)
  | .loaded v => (v + 1, .done)
  | .done => (shared, .done)

/-- Run two increment threads under a schedule: `false` steps the first
thread, `true` the second; returns the final counter and thread
states. -/
def runSched : List Bool → Nat → CounterThread → CounterThread →
    Nat × CounterThread × CounterThread
  | [], c, t0, t1 => (c, t0, t1)
  | b :: rest, c, t0, t1 =>
    if b then
      runSched rest (counterStep c t1).1 t0 (counterStep c t1).2
    else
      runSched rest (counterStep c t0).1 (counterStep c t0).2 t1

/-! ## File-system model of the rewrite pipeline
(`process_and_translate_tex_files`, lines 193-272, and the compilation
stage, lines 134-191 and 320-368)

Paths are character lists; a file system maps a path to the file's line
list (`readlines`) or `none` when the file is absent or unreadable. The
directory walk is modelled by the list of file paths it yields. -/

/-- A file system: path to optional line list. -/
abbrev FS : Type := List Char → Option (List String)

/-- Writing a file. -/
def fsWrite (fs : FS) (p : List Char) (v : List String) : FS :=
  fun q => if q = p then some v else fs q

/-- `file_path + "_original"` (line 206), the snapshot path of a
document. -/
def snapshotPath (p : List Char) : List Char :=
  p ++ String.data "_original"

/-- A translation job: document path, chunk index, chunk lines. -/
abbrev Job : Type := List Char × Nat × List String

/-- One discovery step (lines 204-228) for walked path `p`: for a
readable `.tex` file, write its snapshot, split it into chunks of `k`
lines appended to the job list, and rewrite the file with its own lines
(line 225); unreadable files are logged and skipped, other files are
ignored. -/
def discoverStep (k : Nat) (st : FS × List Job) (p : List Char) : FS × List Job :=
  if endsWithTex p then
    match st.1 p with
    | none => st
    | some lines =>
      (fsWrite (fsWrite st.1 (snapshotPath p) lines) p lines,
       st.2 ++ (chunk_lines_safely lines k).enum.map (fun ic => (p, ic.1, ic.2)))
  else st

/-- First-occurrence order of the document paths carried by the results;
models insertion order of the `file_contents` dict (lines 257-261). -/
def firstOccur : List (List Char) → List (List Char)
  | [] => []
  | p :: ps => p :: (firstOccur ps).filter (fun q => q ≠ p)

/-- The translated content written back for document `p`
(lines 263-269), from the full result list: that document's
`(chunk_idx, translated_chunk)` pairs sorted by index and
concatenated. -/
def docContent (results : List (List Char × Nat × String)) (p : List Char) : List String :=
  [mergeDocument ((results.filter (fun r => r.1 = p)).map (fun r => (r.2.1, r.2.2)))]

/-- The discovery loop (lines 202-228): fold of `discoverStep` over the
walked paths, starting from the initial file system and an empty job
list. -/
def discovered (k : Nat) (names : List (List Char)) (fs0 : FS) : FS × List Job :=
  names.foldl (discoverStep k) (fs0, [])

/-- The result list produced by `executor.map(translate_chunk, ...)`
(line 254): one result per job, in job order (whatever the completion
order of the pool threads). The remote service is an oracle indexed by
document path, chunk index, and attempt number. -/
def pipelineResults (oracle : List Char → Nat → Nat → TransResp) (k : Nat)
    (names : List (List Char)) (fs0 : FS) : List (List Char × Nat × String) :=
  (discovered k names fs0).2.map (fun j => translate_chunk (oracle j.1 j.2.1) j.1 j.2.1 j.2.2)

/-- `process_and_translate_tex_files` (lines 193-272) over a walked path
list: discovery (snapshot + chunking), translation of every job, and
per-document write-back of the merged content. -/
def process_and_translate_tex_files (oracle : List Char → Nat → Nat → TransResp)
    (k : Nat) (names : List (List Char)) (fs0 : FS) : FS :=
  (firstOccur ((pipelineResults oracle k names fs0).map (fun r => r.1))).foldl
    (fun fs p => fsWrite fs p (docContent (pipelineResults oracle k names fs0) p))
    (discovered k names fs0).1

/-- The CJK-related keywords removed by `remove_cjk_related_lines`
(lines 164-174). -/
def cjk_keywords : List (List Char) :=
  [String.data "\\usepackage\x7bCJKutf8\x7d",
   String.data "\\usepackage\x7bkotex\x7d",
   String.data "\\begin\x7bCJK\x7d",
   String.data "\\end\x7bCJK\x7d",
   String.data "\\CJKfamily",
   String.data "\\CJK@",
   String.data "\\CJKrmdefault",
   String.data "\\CJKsfdefault",
   String.data "\\CJKttdefault"]

/-- `remove_cjk_related_lines` (lines 160-191) on a line list. -/
def remove_cjk_related_lines (lines : List String) : List String :=
  lines.filter (fun line => !(cjk_keywords.any (fun kw => containsTok kw line.data)))

/-- The insertion loop of `add_custom_font_to_tex` (lines 148-151): the
font setup block is inserted after the first line starting with
`\documentclass`. -/
def insertAfterDocumentclass (setup : String) : List String → List String
  | [] => []
  | l :: ls =>
    if isPre (String.data "\\documentclass") l.data then l :: setup :: ls
    else l :: insertAfterDocumentclass setup ls

/-- `add_custom_font_to_tex` (lines 134-157): CJK-related lines are
removed from the file, then the font setup block is inserted. -/
def add_custom_font_to_tex (setup : String) (lines : List String) : List String :=
  insertAfterDocumentclass setup (remove_cjk_related_lines lines)

/-- The file records the compilation stage's walk builds from the file
system (lines 325-342): contents and byte size come from the stored
lines. -/
def buildTexFiles (names : List (List Char)) (fs : FS) : List TexFile :=
  names.map (fun p =>
    ⟨p, (((fs p).getD []).map String.data).flatten,
     ((((fs p).getD []).map String.data).flatten).length⟩)

/-- The compilation stage (`compile_main_tex`, lines 359-368) as a file
system transformation: the selected main file is rewritten with its
font-injected content; the `xelatex` subprocess and the PDF relocation
touch no `.tex` source file, and with no main file nothing is
modified. -/
def compileStage (setup : String) (names : List (List Char)) (fs : FS) : FS :=
  match find_main_tex_file (buildTexFiles names fs) with
  | none => fs
  | some f => fsWrite fs f.name (add_custom_font_to_tex setup ((fs f.name).getD []))

/-- The translation pass followed by the compilation stage, as invoked
from `download_arxiv_intro_and_tex` (lines 452-453). `names` is the walk
of the translation stage, `names2` the (later) walk of the compilation
stage. -/
def translatePipeline (oracle : List Char → Nat → Nat → TransResp) (k : Nat)
    (names names2 : List (List Char)) (setup : String) (fs0 : FS) : FS :=
  compileStage setup names2 (process_and_translate_tex_files oracle k names fs0)

/-- A one-document file system used to witness the snapshot theorem. -/
def wFS8 : FS :=
  fun q => if q = String.data "doc.tex" then some ["A\n", "B\n", "C\n"] else none

end ArxivTranslator

namespace ArxivTranslator

theorem chunkGo_flatten (k : Nat) (ls : List String) :
    ∀ cur : List String, (chunkGo k ls cur cur.length).flatten = cur ++ ls := by
  induction ls with
  | nil =>
    intro cur
    by_cases h : cur.isEmpty
    · simp [chunkGo, h, List.isEmpty_iff.mp h]
    · simp [chunkGo, h]
  | cons l ls ih =>
    intro cur
    by_cases h : cur.length + 1 ≥ k
    · have h0 : (chunkGo k ls [] 0).flatten = ls := by
        simpa using ih []
      simp [chunkGo, h, h0]
    · have := ih (cur ++ [l])
      simp at this
      simp [chunkGo, h, this]

theorem chunkGo_lengths (k : Nat) (hk : 1 ≤ k) (ls : List String) :
    ∀ cur : List String, cur.length < k →
      (∀ ch ∈ (chunkGo k ls cur cur.length).dropLast, ch.length = k) ∧
      (cur ++ ls ≠ [] →
        ∃ last, (chunkGo k ls cur cur.length).getLast? = some last ∧
          last.length =
            (if (cur.length + ls.length) % k = 0 then k
             else (cur.length + ls.length) % k)) := by
  induction ls with
  | nil =>
    intro cur hcur
    constructor
    · by_cases h : cur.isEmpty <;> simp [chunkGo, h]
    · intro hne
      have hcne : cur ≠ [] := by simpa using hne
      have hmod : cur.length % k = cur.length := Nat.mod_eq_of_lt hcur
      have hpos : cur.length ≠ 0 := by
        simpa [List.length_eq_zero] using hcne
      refine ⟨cur, ?_, ?_⟩
      · simp [chunkGo, hcne]
      · simp [hmod, hpos]
  | cons l ls ih =>
    intro cur hcur
    by_cases h : cur.length + 1 ≥ k
    · have hkeq : cur.length + 1 = k := Nat.le_antisymm hcur h
      have ih0 := ih [] (by simpa using hk)
      rcases ih0 with ⟨ihDrop, ihLast⟩
      by_cases hls : ls = []
      · subst hls
        constructor
        · intro ch hch
          simp [chunkGo, h] at hch
        · intro _
          refine ⟨cur ++ [l], ?_, ?_⟩
          · simp [chunkGo, h]
          · have : (cur.length + 1) % k = 0 := by
              simp [hkeq]
            simp [this, hkeq]
      · have hRjoin : (chunkGo k ls [] 0).flatten = ls := by simpa using chunkGo_flatten k ls []
        have hRne : chunkGo k ls [] 0 ≠ [] := by
          intro hcon
          rw [hcon] at hRjoin
          exact hls (by simpa using hRjoin.symm)
        have hsimp0 : chunkGo k ls [] 0 = chunkGo k ls [] ([] : List String).length := rfl
        constructor
        · intro ch hch
          rcases List.exists_cons_of_ne_nil hRne with ⟨r, rs, hR⟩
          simp [chunkGo, h, hR] at hch
          rcases hch with hch | hch
          · simpa [hch] using hkeq
          · apply ihDrop
            rw [hsimp0.symm, hR]
            simpa [List.dropLast] using hch
        · intro _
          rcases ihLast (by simpa using hls) with ⟨last, hlast, hlen⟩
          refine ⟨last, ?_, ?_⟩
          · rcases List.exists_cons_of_ne_nil hRne with ⟨r, rs, hR⟩
            rw [hsimp0.symm] at hlast
            simp [chunkGo, h, hR]
            rw [hR] at hlast
            simpa using hlast
          · have hmod : (cur.length + (ls.length + 1)) % k = ls.length % k := by
              have heq : cur.length + (ls.length + 1) = k + ls.length := by omega
              rw [heq]
              exact Nat.add_mod_left k ls.length
            simp only [List.length_cons]
            rw [hmod]
            simpa using hlen
    · have hlt : cur.length + 1 < k := Nat.lt_of_not_le h
      have hlen : (cur ++ [l]).length = cur.length + 1 := by simp
      have ih1 := ih (cur ++ [l]) (by simpa using hlt)
      rw [hlen] at ih1
      rcases ih1 with ⟨ihDrop, ihLast⟩
      constructor
      · intro ch hch
        apply ihDrop
        simpa [chunkGo, h] using hch
      · intro _
        rcases ihLast (by simp) with ⟨last, hlast, hlenlast⟩
        refine ⟨last, ?_, ?_⟩
        · simpa [chunkGo, h] using hlast
        · have h2 : cur.length + 1 + ls.length = cur.length + (ls.length + 1) := by omega
          rw [h2] at hlenlast
          simpa using hlenlast

/-- C1: for every line list and positive chunk size `k`,
`chunk_lines_safely` yields chunks where every chunk except the last has
exactly `k` lines, the last has `lines.length % k` lines (or `k` when the
length is an exact multiple of `k`), concatenating the chunks in order
reproduces the input exactly, and empty input yields an empty chunk
list. -/
theorem C1_chunk_lines_safely_correct (lines : List String) (k : Nat) (hk : 1 ≤ k) :
    (chunk_lines_safely lines k).flatten = lines ∧
    (∀ ch ∈ (chunk_lines_safely lines k).dropLast, ch.length = k) ∧
    (lines ≠ [] →
      ∃ last, (chunk_lines_safely lines k).getLast? = some last ∧
        last.length = (if lines.length % k = 0 then k else lines.length % k)) ∧
    chunk_lines_safely ([] : List String) k = [] := by
  have hflat := chunkGo_flatten k lines []
  have hlens := chunkGo_lengths k hk lines [] (by simpa using hk)
  refine ⟨by simpa [chunk_lines_safely] using hflat, ?_, ?_, rfl⟩
  · intro ch hch
    exact hlens.1 ch (by simpa [chunk_lines_safely] using hch)
  · intro hne
    rcases hlens.2 (by simpa using hne) with ⟨last, hlast, hlen⟩
    exact ⟨last, by simpa [chunk_lines_safely] using hlast, by simpa using hlen⟩

/-- C1 witness: five lines with chunk size 2 give chunks of 2, 2, 1 whose
concatenation is the input. -/
theorem C1_witness :
    (chunk_lines_safely ["a", "b", "c", "d", "e"] 2).flatten = ["a", "b", "c", "d", "e"] ∧
    (∀ ch ∈ (chunk_lines_safely ["a", "b", "c", "d", "e"] 2).dropLast, ch.length = 2) ∧
    ((["a", "b", "c", "d", "e"] : List String) ≠ [] →
      ∃ last, (chunk_lines_safely ["a", "b", "c", "d", "e"] 2).getLast? = some last ∧
        last.length =
          (if (["a", "b", "c", "d", "e"] : List String).length % 2 = 0 then 2
           else (["a", "b", "c", "d", "e"] : List String).length % 2)) ∧
    chunk_lines_safely ([] : List String) 2 = [] :=
  C1_chunk_lines_safely_correct ["a", "b", "c", "d", "e"] 2 (by decide)

theorem translateGo_ok (oracle : Nat → TransResp) (cs : Nat) :
    ∀ rem attempt s, translateGo oracle cs rem attempt = .ok s →
      ∃ i ls, attempt ≤ i ∧ i < attempt + rem ∧ oracle i = .resp ls ∧
        ls.length = cs ∧ s = String.join ls := by
  intro rem
  induction rem with
  | zero =>
    intro attempt s h
    simp [translateGo] at h
  | succ rem ih =>
    intro attempt s h
    rw [translateGo] at h
    cases horacle : oracle attempt with
    | err e =>
      rw [horacle] at h
      by_cases hrem : rem = 0
      · simp [hrem] at h
      · simp [hrem] at h
        rcases ih (attempt + 1) s h with ⟨i, ls, hle, hlt, h1, h2, h3⟩
        exact ⟨i, ls, by omega, by omega, h1, h2, h3⟩
    | resp ls =>
      rw [horacle] at h
      by_cases hlen : ls.length = cs
      · simp [hlen] at h
        exact ⟨attempt, ls, le_refl _, by omega, horacle, hlen, h.symm⟩
      · simp [hlen] at h
        rcases ih (attempt + 1) s h with ⟨i, ls', hle, hlt, h1, h2, h3⟩
        exact ⟨i, ls', by omega, by omega, h1, h2, h3⟩

/-- C2: whenever `translate_text` returns normally, the returned text is
the concatenation of a transformer-response line list whose length equals
the chunk size; a response whose line count differs is never the accepted
source of the result. -/
theorem C2_fidelity_gate (oracle : Nat → TransResp) (chunkSize : Nat) (s : String)
    (h : translate_text oracle chunkSize = .ok s) :
    ∃ i ls, i < retry_attempts ∧ oracle i = .resp ls ∧ ls.length = chunkSize ∧
      s = String.join ls := by
  rcases translateGo_ok oracle chunkSize retry_attempts 0 s h with
    ⟨i, ls, _, hlt, h1, h2, h3⟩
  exact ⟨i, ls, by simpa using hlt, h1, h2, h3⟩

/-- C2 witness: an oracle answering the first attempt with a correct
two-line response makes `translate_text` return, and the theorem recovers
that response. -/
theorem C2_witness :
    ∃ i ls, i < retry_attempts ∧ wGood i = .resp ls ∧ ls.length = 2 ∧
      String.join ["x", "y"] = String.join ls :=
  C2_fidelity_gate wGood 2 (String.join ["x", "y"]) rfl

/-- C4: when `translate_text` raises after exhausting its retries, the
worker's result for that chunk carries exactly the concatenation of the
chunk's original untranslated lines. -/
theorem C4_fallback_on_failure (oracle : Nat → TransResp) (fp : List Char) (idx : Nat)
    (chunk : List String) (e : String)
    (h : translate_text oracle chunk.length = .error e) :
    translate_chunk oracle fp idx chunk = (fp, idx, String.join chunk) := by
  unfold translate_chunk
  rw [h]

/-- C4 witness: with an always-failing transformer, the result for the
chunk `["x", "y"]` is its original joined content. -/
theorem C4_witness :
    translate_chunk wBad (String.data "main.tex") 0 ["x", "y"] =
      (String.data "main.tex", 0, String.join ["x", "y"]) :=
  C4_fallback_on_failure wBad (String.data "main.tex") 0 ["x", "y"] "boom" rfl

theorem translateGo_congr (o o' : Nat → TransResp) (cs : Nat) :
    ∀ rem attempt, (∀ i, attempt ≤ i → i < attempt + rem → o i = o' i) →
      translateGo o cs rem attempt = translateGo o' cs rem attempt := by
  intro rem
  induction rem with
  | zero => intro attempt _; rfl
  | succ rem ih =>
    intro attempt hagree
    have h0 : o attempt = o' attempt := hagree attempt (le_refl _) (by omega)
    rw [translateGo, translateGo, ← h0]
    cases o attempt with
    | err e =>
      by_cases hrem : rem = 0
      · simp [hrem]
      · simp only [hrem, if_false]
        exact ih (attempt + 1) (fun i h1 h2 => hagree i (by omega) (by omega))
    | resp ls =>
      by_cases hlen : ls.length = cs
      · simp [hlen]
      · simp only [hlen, if_false]
        exact ih (attempt + 1) (fun i h1 h2 => hagree i (by omega) (by omega))

theorem translateGo_all_bad (o : Nat → TransResp) (cs : Nat) :
    ∀ rem attempt, (∀ i, attempt ≤ i → i < attempt + rem → accepts (o i) cs = false) →
      ∃ e, translateGo o cs rem attempt = .error e := by
  intro rem
  induction rem with
  | zero => intro attempt _; exact ⟨_, rfl⟩
  | succ rem ih =>
    intro attempt hbad
    have h0 := hbad attempt (le_refl _) (by omega)
    rw [translateGo]
    cases horacle : o attempt with
    | err e =>
      by_cases hrem : rem = 0
      · exact ⟨e, by simp [hrem]⟩
      · simp only [hrem, if_false]
        exact ih (attempt + 1) (fun i h1 h2 => hbad i (by omega) (by omega))
    | resp ls =>
      rw [horacle] at h0
      have hlen : ls.length ≠ cs := by
        simpa [accepts] using h0
      simp only [hlen, if_false]
      exact ih (attempt + 1) (fun i h1 h2 => hbad i (by omega) (by omega))

/-- C6: `translate_text` consults the transformer on at most the first
3 attempt indices (its result is unchanged by any modification of the
oracle beyond index 2), and when none of those attempts is acceptable it
raises an exception instead of returning a value. -/
theorem C6_retry_bound (cs : Nat) :
    (∀ o o' : Nat → TransResp, (∀ i, i < retry_attempts → o i = o' i) →
      translate_text o cs = translate_text o' cs) ∧
    (∀ o : Nat → TransResp, (∀ i, i < retry_attempts → accepts (o i) cs = false) →
      ∃ e, translate_text o cs = .error e) := by
  constructor
  · intro o o' hagree
    exact translateGo_congr o o' cs retry_attempts 0 (fun i _ h2 => hagree i (by simpa using h2))
  · intro o hbad
    exact translateGo_all_bad o cs retry_attempts 0 (fun i _ h2 => hbad i (by simpa using h2))

/-- C6 witness: for chunk size 2, an always-failing oracle agrees with
itself on the first three attempts and yields an exception. -/
theorem C6_witness :
    translate_text wBad 2 = translate_text wBad 2 ∧ ∃ e, translate_text wBad 2 = .error e :=
  ⟨(C6_retry_bound 2).1 wBad wBad (fun _ _ => rfl),
   (C6_retry_bound 2).2 wBad (fun _ _ => rfl)⟩

/-- C3: for one document, whatever order the per-chunk results arrive in
(any permutation `rs'` of the canonically indexed results `rs`), the
content written back is the concatenation of the translated texts in
ascending chunk-index order. -/
theorem C3_order_preserving_merge (rs rs' : List (Nat × String))
    (hperm : rs'.Perm rs) (hsorted : rs.Pairwise (fun a b => a.1 < b.1)) :
    mergeDocument rs' = String.join (rs.map Prod.snd) := by
  haveI : IsTotal (Nat × String) (fun a b => a.1 ≤ b.1) :=
    ⟨fun a b => Nat.le_total a.1 b.1⟩
  haveI : IsTrans (Nat × String) (fun a b => a.1 ≤ b.1) :=
    ⟨fun _ _ _ h1 h2 => Nat.le_trans h1 h2⟩
  haveI : IsAntisymm (Nat × String) (fun a b => a.1 < b.1) :=
    ⟨fun _ _ h h' => absurd (Nat.lt_trans h h') (Nat.lt_irrefl _)⟩
  have hp1 : (sortResults rs').Perm rs :=
    (List.perm_insertionSort _ rs').trans hperm
  have hle : (sortResults rs').Pairwise (fun a b => a.1 ≤ b.1) :=
    List.sorted_insertionSort _ rs'
  have hneRs : rs.Pairwise (fun a b : Nat × String => a.1 ≠ b.1) :=
    hsorted.imp (fun h => Nat.ne_of_lt h)
  have hne : (sortResults rs').Pairwise (fun a b : Nat × String => a.1 ≠ b.1) :=
    hp1.symm.pairwise hneRs (fun h => Ne.symm h)
  have hlt : (sortResults rs').Pairwise (fun a b => a.1 < b.1) :=
    List.Pairwise.imp₂ (fun _ _ h1 h2 => Nat.lt_of_le_of_ne h1 h2) hle hne
  have heq : sortResults rs' = rs :=
    List.eq_of_perm_of_sorted hp1 hlt hsorted
  unfold mergeDocument
  rw [heq]

/-- C3 witness: the results for chunks 0, 1, 2 completing in reverse
order still merge to chunk0 ++ chunk1 ++ chunk2. -/
theorem C3_witness :
    mergeDocument [(2, "C"), (1, "B"), (0, "A")] =
      String.join ([(0, "A"), (1, "B"), (2, "C")].map Prod.snd) :=
  C3_order_preserving_merge [(0, "A"), (1, "B"), (2, "C")] [(2, "C"), (1, "B"), (0, "A")]
    (by decide) (by decide)

theorem takeWhile_append_of_stop {p : Char → Bool} (xs ys : List Char)
    (h : ∃ x ∈ xs, p x = false) :
    (xs ++ ys).takeWhile p = xs.takeWhile p := by
  induction xs with
  | nil => rcases h with ⟨x, hx, _⟩; cases hx
  | cons x xs ih =>
    by_cases hp : p x = true
    · simp only [List.cons_append, List.takeWhile_cons, hp, if_true]
      rcases h with ⟨y, hy, hpy⟩
      rcases List.mem_cons.mp hy with rfl | hy'
      · rw [hp] at hpy; cases hpy
      · rw [ih ⟨y, hy', hpy⟩]
    · have hp' : p x = false := by simpa using hp
      simp [List.takeWhile_cons, hp']

theorem takeWhile_append_of_all {p : Char → Bool} (xs ys : List Char)
    (h : ∀ x ∈ xs, p x = true) :
    (xs ++ ys).takeWhile p = xs ++ ys.takeWhile p := by
  induction xs with
  | nil => simp
  | cons x xs ih =>
    have hx := h x (by simp)
    simp only [List.cons_append, List.takeWhile_cons, hx, if_true]
    rw [ih (fun y hy => h y (by simp [hy]))]

theorem takeWhile_all {p : Char → Bool} (xs : List Char) (h : ∀ x ∈ xs, p x = true) :
    xs.takeWhile p = xs := by
  induction xs with
  | nil => rfl
  | cons x xs ih =>
    have hx := h x (by simp)
    simp only [List.takeWhile_cons, hx, if_true]
    rw [ih (fun y hy => h y (by simp [hy]))]

theorem afterLastSlash_no_slash (cs : List Char) (h : '/' ∉ cs) :
    afterLastSlash cs = cs := by
  unfold afterLastSlash
  rw [takeWhile_all]
  · simp
  · intro x hx
    simp only [decide_eq_true_eq]
    intro hxeq
    exact h (by simpa [hxeq] using hx)

theorem afterLastSlash_cons_of_mem (c : Char) (cs : List Char) (h : '/' ∈ cs) :
    afterLastSlash (c :: cs) = afterLastSlash cs := by
  unfold afterLastSlash
  rw [List.reverse_cons, takeWhile_append_of_stop]
  exact ⟨'/', by simpa using h, by simp⟩

theorem afterLastSlash_slash_cons (cs : List Char) :
    afterLastSlash ('/' :: cs) = afterLastSlash cs := by
  by_cases h : '/' ∈ cs
  · exact afterLastSlash_cons_of_mem '/' cs h
  · rw [afterLastSlash_no_slash cs h]
    unfold afterLastSlash
    rw [List.reverse_cons, takeWhile_append_of_all]
    · simp
    · intro x hx
      simp only [decide_eq_true_eq]
      intro hxeq
      exact h (by simpa [hxeq] using hx)

theorem splitSlash_ne_nil (s : List Char) : splitSlash s ≠ [] := by
  cases s with
  | nil => simp [splitSlash]
  | cons c cs =>
    unfold splitSlash
    cases splitSlash cs with
    | nil => simp
    | cons t ts => by_cases h : c = '/' <;> simp [h]

theorem splitSlash_no_slash (cs : List Char) (h : '/' ∉ cs) : splitSlash cs = [cs] := by
  induction cs with
  | nil => rfl
  | cons c cs ih =>
    have hc : c ≠ '/' := by
      intro hc
      exact h (by simp [hc])
    have ih' := ih (fun hm => h (by simp [hm]))
    unfold splitSlash
    rw [ih']
    simp [hc]

theorem splitSlash_len_of_mem (cs : List Char) (h : '/' ∈ cs) :
    2 ≤ (splitSlash cs).length := by
  induction cs with
  | nil => cases h
  | cons c cs ih =>
    unfold splitSlash
    rcases List.exists_cons_of_ne_nil (splitSlash_ne_nil cs) with ⟨t, ts, hts⟩
    rw [hts]
    by_cases hc : c = '/'
    · simp [hc]
    · have h' : '/' ∈ cs := by
        rcases List.mem_cons.mp h with h0 | h0
        · exact absurd h0.symm hc
        · exact h0
      have := ih h'
      rw [hts] at this
      simpa [hc] using this

theorem pyLast_splitSlash (s : List Char) : pyLast (splitSlash s) = afterLastSlash s := by
  induction s with
  | nil => rfl
  | cons c cs ih =>
    rcases List.exists_cons_of_ne_nil (splitSlash_ne_nil cs) with ⟨t, ts, hts⟩
    by_cases hc : c = '/'
    · subst hc
      have hsplit : splitSlash ('/' :: cs) = [] :: t :: ts := by
        unfold splitSlash
        rw [hts]
        simp
      rw [hsplit, afterLastSlash_slash_cons, ← ih, hts]
      simp [pyLast, List.getLastD_cons]
    · have hsplit : splitSlash (c :: cs) = (c :: t) :: ts := by
        unfold splitSlash
        rw [hts]
        simp [hc]
      cases ts with
      | nil =>
        have hmem : '/' ∉ cs := by
          intro hm
          have h2 := splitSlash_len_of_mem cs hm
          rw [hts] at h2
          simp at h2
        have ht : t = cs := by
          have h3 := splitSlash_no_slash cs hmem
          rw [hts] at h3
          simpa using h3
        rw [ht] at hsplit
        have hnm : '/' ∉ c :: cs := by
          intro hm
          rcases List.mem_cons.mp hm with h0 | h0
          · exact hc h0.symm
          · exact hmem h0
        rw [hsplit, afterLastSlash_no_slash _ hnm]
        rfl
      | cons t2 ts2 =>
        have hmem : '/' ∈ cs := by
          by_contra hnm
          have h3 := splitSlash_no_slash cs hnm
          rw [hts] at h3
          simp at h3
        rw [hsplit, afterLastSlash_cons_of_mem c cs hmem, ← ih, hts]
        simp [pyLast, List.getLastD_cons]

/-- C10: `extract_arxiv_id` returns the substring after the last `/`
when the input contains `arxiv.org`, returns the input unchanged
otherwise, and leaves any slash-free input unchanged. -/
theorem C10_extract_arxiv_id (s : List Char) :
    (containsTok (String.data "arxiv.org") s = true →
      extract_arxiv_id s = afterLastSlash s) ∧
    (containsTok (String.data "arxiv.org") s = false → extract_arxiv_id s = s) ∧
    ('/' ∉ s → extract_arxiv_id s = s) := by
  refine ⟨?_, ?_, ?_⟩
  · intro h
    rw [extract_arxiv_id, if_pos h, pyLast_splitSlash]
  · intro h
    rw [extract_arxiv_id, if_neg (by simp [h])]
  · intro h
    by_cases hct : containsTok (String.data "arxiv.org") s = true
    · rw [extract_arxiv_id, if_pos hct, pyLast_splitSlash, afterLastSlash_no_slash _ h]
    · rw [extract_arxiv_id, if_neg hct]

/-- C10 witness: a full arXiv URL maps to its identifier part, and a
bare identifier without slashes is returned unchanged. -/
theorem C10_witness :
    extract_arxiv_id (String.data "https://arxiv.org/abs/1234.5678") =
      afterLastSlash (String.data "https://arxiv.org/abs/1234.5678") ∧
    extract_arxiv_id (String.data "1234.5678") = String.data "1234.5678" :=
  ⟨(C10_extract_arxiv_id _).1 (by decide),
   (C10_extract_arxiv_id _).2.2 (by decide)⟩

theorem subBegin_id (fuel : Nat) :
    ∀ x : List Char, containsTok beginLit x = false → subBegin fuel x = x := by
  induction fuel with
  | zero => intro x _; rfl
  | succ fuel ih =>
    intro x hx
    cases x with
    | nil => rfl
    | cons c cs =>
      rw [containsTok] at hx
      have h1 : isPre beginLit (c :: cs) = false := by
        cases hp : isPre beginLit (c :: cs)
        · rfl
        · rw [hp] at hx; simp at hx
      have h2 : containsTok beginLit cs = false := by
        cases hp : containsTok beginLit cs
        · rfl
        · rw [hp] at hx; simp at hx
      have hm : matchBegin (c :: cs) = none := by
        rw [matchBegin, h1]
        simp
      rw [subBegin, hm, ih cs h2]

theorem removeTok_id (needle : List Char) (fuel : Nat) :
    ∀ x : List Char, containsTok needle x = false → removeTok needle fuel x = x := by
  induction fuel with
  | zero => intro x _; rfl
  | succ fuel ih =>
    intro x hx
    cases x with
    | nil => rfl
    | cons c cs =>
      rw [containsTok] at hx
      have h1 : isPre needle (c :: cs) = false := by
        cases hp : isPre needle (c :: cs)
        · rfl
        · rw [hp] at hx; simp at hx
      have h2 : containsTok needle cs = false := by
        cases hp : containsTok needle cs
        · rfl
        · rw [hp] at hx; simp at hx
      rw [removeTok, h1, ih cs h2]
      simp

/-- C5 counterexample: the claim's protect/restore inverse law fails on
the code. The protect step applied before transmission is
`remove_latex_commands`, and no restore step is applied to the response;
`remove_latex_commands` maps both `\end{CJK*}` (a plain LaTeX string
containing no escape token the guard could have inserted) and the empty
string to the empty string, so no restore function can be an exact
inverse of it. -/
theorem C5_counterexample :
    remove_latex_commands (String.data "\\end\x7bCJK*\x7d") = [] ∧
    remove_latex_commands ([] : List Char) = [] ∧
    String.data "\\end\x7bCJK*\x7d" ≠ ([] : List Char) :=
  ⟨by decide, rfl, by decide⟩

/-- C5 amended: on every string that contains neither the
`\begin{CJK*}{` pattern prefix nor the `\end{CJK*}` token, the protect
step `remove_latex_commands` is the identity, so with the code's
(identity) restore direction `restore (protect x) = x` holds; no
stronger inverse law is available. -/
theorem C5_guard_identity (x : List Char)
    (h1 : containsTok beginLit x = false)
    (h2 : containsTok endLit x = false) :
    remove_latex_commands x = x := by
  unfold remove_latex_commands
  rw [subBegin_id x.length x h1, removeTok_id endLit x.length x h2]

/-- C5 witness: an ordinary LaTeX line without CJK delimiters passes
through the guard unchanged. -/
theorem C5_witness :
    remove_latex_commands (String.data "hello \\section\x7ba\x7d") =
      String.data "hello \\section\x7ba\x7d" :=
  C5_guard_identity (String.data "hello \\section\x7ba\x7d") (by decide) (by decide)

theorem foldl_maxBySize_spec (fs : List TexFile) :
    ∀ f : TexFile,
      (fs.foldl (fun acc g => if g.size > acc.size then g else acc) f) ∈ f :: fs ∧
      ∀ g ∈ f :: fs,
        g.size ≤ (fs.foldl (fun acc g => if g.size > acc.size then g else acc) f).size := by
  induction fs with
  | nil =>
    intro f
    constructor
    · simp
    · intro g hg
      simp at hg
      subst hg
      exact le_refl _
  | cons a fs ih =>
    intro f
    have ihp := ih (if a.size > f.size then a else f)
    constructor
    · simp only [List.foldl_cons]
      rcases List.mem_cons.mp ihp.1 with h0 | h0
      · rw [h0]
        by_cases hc : a.size > f.size
        · rw [if_pos hc]
          exact List.mem_cons_of_mem _ (List.mem_cons_self _ _)
        · rw [if_neg hc]
          exact List.mem_cons_self _ _
      · exact List.mem_cons_of_mem _ (List.mem_cons_of_mem _ h0)
    · intro g hg
      simp only [List.foldl_cons]
      have hf : f.size ≤ (if a.size > f.size then a else f).size := by
        by_cases hc : a.size > f.size
        · rw [if_pos hc]; exact Nat.le_of_lt hc
        · rw [if_neg hc]
      have ha : a.size ≤ (if a.size > f.size then a else f).size := by
        by_cases hc : a.size > f.size
        · rw [if_pos hc]
        · rw [if_neg hc]; exact Nat.le_of_not_lt hc
      have htop := ihp.2 (if a.size > f.size then a else f) (List.mem_cons_self _ _)
      rcases List.mem_cons.mp hg with h0 | h0
      · subst h0
        exact le_trans hf htop
      · rcases List.mem_cons.mp h0 with h1 | h1
        · subst h1
          exact le_trans ha htop
        · exact ihp.2 g (List.mem_cons_of_mem _ h1)

/-- C7 counterexample: with one small file containing only a
document-class declaration and one larger fragment containing none, the
code skips the claim's middle fallback tier (the single document-class
candidate) and returns the larger file by byte size. -/
theorem C7_counterexample :
    find_main_tex_file [fA7, fB7] = some fB7 ∧
    containsTok (String.data "\\documentclass") fA7.contents = true ∧
    isMainCandidate fA7.contents = false ∧
    containsTok (String.data "\\documentclass") fB7.contents = false ∧
    fB7.size > fA7.size :=
  ⟨by decide, by decide, by decide, by decide, by decide⟩

/-- C7 amended: selection returns a file with a document-class
declaration plus one of the root markers whenever one exists; otherwise
it falls back directly to the largest candidate file by byte size,
regardless of whether some candidate contains a document-class
declaration; with no candidate files it aborts without invoking the
compiler. -/
theorem C7_selection_policy (files : List TexFile) :
    (((files.filter (fun f => texCandidate f.name)).filter
        (fun f => isMainCandidate f.contents)) ≠ [] →
      ∃ f, find_main_tex_file files = some f ∧ texCandidate f.name = true ∧
        isMainCandidate f.contents = true) ∧
    (((files.filter (fun f => texCandidate f.name)).filter
        (fun f => isMainCandidate f.contents)) = [] →
      files.filter (fun f => texCandidate f.name) ≠ [] →
      ∃ f, find_main_tex_file files = some f ∧ texCandidate f.name = true ∧
        ∀ g ∈ files.filter (fun f => texCandidate f.name), g.size ≤ f.size) ∧
    (files.filter (fun f => texCandidate f.name) = [] →
      compile_main_tex files = none) := by
  refine ⟨?_, ?_, ?_⟩
  · intro h
    rcases List.exists_cons_of_ne_nil h with ⟨m, rest, hms⟩
    have hm : m ∈ (files.filter (fun f => texCandidate f.name)).filter
        (fun f => isMainCandidate f.contents) := by
      rw [hms]
      exact List.mem_cons_self _ _
    refine ⟨m, ?_, ?_, ?_⟩
    · unfold find_main_tex_file
      rw [hms]
    · exact (List.mem_filter.mp (List.mem_filter.mp hm).1).2
    · exact (List.mem_filter.mp hm).2
  · intro hms hcs
    rcases List.exists_cons_of_ne_nil hcs with ⟨f0, fs0, hcs'⟩
    have hspec := foldl_maxBySize_spec fs0 f0
    refine ⟨fs0.foldl (fun acc g => if g.size > acc.size then g else acc) f0, ?_, ?_, ?_⟩
    · unfold find_main_tex_file
      rw [hms, hcs']
      rfl
    · have hmem := hspec.1
      rw [← hcs'] at hmem
      exact (List.mem_filter.mp hmem).2
    · intro g hg
      rw [hcs'] at hg
      exact hspec.2 g hg
  · intro h
    unfold compile_main_tex find_main_tex_file
    rw [h]
    simp [maxBySize]

/-- C7 witness: the three policy branches at concrete inputs: a true
root file is selected; with no root file the largest candidate is
selected; with no files the compiler is not invoked. -/
theorem C7_witness :
    (∃ f, find_main_tex_file [fMain7, fA7] = some f ∧ texCandidate f.name = true ∧
      isMainCandidate f.contents = true) ∧
    (∃ f, find_main_tex_file [fA7, fB7] = some f ∧ texCandidate f.name = true ∧
      ∀ g ∈ [fA7, fB7].filter (fun f => texCandidate f.name), g.size ≤ f.size) ∧
    compile_main_tex [] = none :=
  ⟨(C7_selection_policy [fMain7, fA7]).1 (by decide),
   (C7_selection_policy [fA7, fB7]).2.1 (by decide) (by decide),
   (C7_selection_policy []).2.2 (by decide)⟩

/-- C9 counterexample: with two translation jobs, the unsynchronized
`completed_chunks += 1` admits an interleaving in which both workers
read the counter before either writes; both jobs finish but the counter
ends at 1, not the job total 2 — the claimed concurrency-safe,
never-double-counting update does not exist in the code. -/
theorem C9_counterexample :
    runSched [false, true, false, true] 0 .start .start = (1, .done, .done) ∧
    (1 : Nat) ≠ 2 :=
  ⟨rfl, by decide⟩

/-- C9 amended: the shared completed-job counter is updated by a plain
unsynchronized read-increment-write; when the two workers' increments do
not interleave the final counter equals the number of jobs, but an
interleaved schedule loses an update. -/
theorem C9_unsynchronized_counter :
    (∀ c : Nat,
      runSched [false, false, true, true] c .start .start = (c + 2, .done, .done)) ∧
    runSched [false, true, false, true] 0 .start .start = (1, .done, .done) :=
  ⟨fun _ => rfl, rfl⟩

theorem snapshotPath_not_tex (p : List Char) : endsWithTex (snapshotPath p) = false := by
  unfold endsWithTex snapshotPath
  rw [List.reverse_append]
  rfl

theorem snapshotPath_inj {p q : List Char} (h : snapshotPath p = snapshotPath q) : p = q :=
  (List.append_inj' h rfl).1

theorem tex_ne_snapshotPath {q p : List Char} (hq : endsWithTex q = true) :
    q ≠ snapshotPath p := by
  intro h
  rw [h, snapshotPath_not_tex] at hq
  exact Bool.noConfusion hq

theorem discoverStep_preserves (k : Nat) (st : FS × List Job) (n q : List Char)
    (h1 : q ≠ n) (h2 : q ≠ snapshotPath n) :
    (discoverStep k st n).1 q = st.1 q := by
  unfold discoverStep
  by_cases ht : endsWithTex n = true
  · simp only [ht, if_true]
    cases hr : st.1 n with
    | none => rfl
    | some lines =>
      show fsWrite (fsWrite st.1 (snapshotPath n) lines) n lines q = st.1 q
      unfold fsWrite
      rw [if_neg h1, if_neg h2]
  · simp only [ht, Bool.false_eq_true, if_false]

theorem discover_foldl_preserves (k : Nat) :
    ∀ (names : List (List Char)) (st : FS × List Job) (q : List Char),
      (∀ n ∈ names, endsWithTex n = true → (q ≠ n ∧ q ≠ snapshotPath n)) →
      (names.foldl (discoverStep k) st).1 q = st.1 q := by
  intro names
  induction names with
  | nil => intro st q _; rfl
  | cons n ns ih =>
    intro st q h
    rw [List.foldl_cons]
    rw [ih (discoverStep k st n) q (fun m hm hmt => h m (List.mem_cons_of_mem _ hm) hmt)]
    by_cases ht : endsWithTex n = true
    · exact discoverStep_preserves k st n q (h n (List.mem_cons_self _ _) ht).1
        (h n (List.mem_cons_self _ _) ht).2
    · unfold discoverStep
      simp only [ht, Bool.false_eq_true, if_false]

theorem discover_foldl_jobs_tex (k : Nat) :
    ∀ (names : List (List Char)) (st : FS × List Job),
      (∀ j ∈ st.2, endsWithTex j.1 = true) →
      ∀ j ∈ (names.foldl (discoverStep k) st).2, endsWithTex j.1 = true := by
  intro names
  induction names with
  | nil => intro st h j hj; exact h j hj
  | cons n ns ih =>
    intro st h j hj
    rw [List.foldl_cons] at hj
    refine ih (discoverStep k st n) ?_ j hj
    intro j' hj'
    unfold discoverStep at hj'
    by_cases ht : endsWithTex n = true
    · simp only [ht, if_true] at hj'
      cases hr : st.1 n with
      | none => rw [hr] at hj'; exact h j' hj'
      | some lines =>
        rw [hr] at hj'
        simp only [List.mem_append] at hj'
        rcases hj' with hold | hnew
        · exact h j' hold
        · rcases List.mem_map.mp hnew with ⟨ic, _, hic⟩
          rw [← hic]
          exact ht
    · simp only [ht, Bool.false_eq_true, if_false] at hj'
      exact h j' hj'

theorem translate_chunk_fst (oracle : Nat → TransResp) (fp : List Char) (idx : Nat)
    (chunk : List String) : (translate_chunk oracle fp idx chunk).1 = fp := by
  unfold translate_chunk
  cases translate_text oracle chunk.length <;> rfl

theorem firstOccur_subset :
    ∀ (l : List (List Char)) (p : List Char), p ∈ firstOccur l → p ∈ l := by
  intro l
  induction l with
  | nil => intro p hp; cases hp
  | cons a l ih =>
    intro p hp
    rw [firstOccur] at hp
    rcases List.mem_cons.mp hp with h0 | h0
    · rw [h0]; exact List.mem_cons_self _ _
    · exact List.mem_cons_of_mem _ (ih p (List.mem_of_mem_filter h0))

theorem foldl_fsWrite_preserves (g : List Char → List String) :
    ∀ (ps : List (List Char)) (fs : FS) (q : List Char),
      (∀ p' ∈ ps, q ≠ p') →
      (ps.foldl (fun fs p => fsWrite fs p (g p)) fs) q = fs q := by
  intro ps
  induction ps with
  | nil => intro fs q _; rfl
  | cons a ps ih =>
    intro fs q h
    rw [List.foldl_cons]
    rw [ih (fsWrite fs a (g a)) q (fun p' hp' => h p' (List.mem_cons_of_mem _ hp'))]
    unfold fsWrite
    rw [if_neg (h a (List.mem_cons_self _ _))]

theorem find_main_texCandidate (files : List TexFile) (f : TexFile)
    (h : find_main_tex_file files = some f) : texCandidate f.name = true := by
  unfold find_main_tex_file at h
  cases hms : (files.filter (fun g => texCandidate g.name)).filter
      (fun g => isMainCandidate g.contents) with
  | cons m rest =>
    rw [hms] at h
    have hmf : m = f := Option.some.inj h
    have hm : m ∈ (files.filter (fun g => texCandidate g.name)).filter
        (fun g => isMainCandidate g.contents) := by
      rw [hms]
      exact List.mem_cons_self _ _
    rw [← hmf]
    exact (List.mem_filter.mp (List.mem_filter.mp hm).1).2
  | nil =>
    rw [hms] at h
    cases hcs : files.filter (fun g => texCandidate g.name) with
    | nil =>
      rw [hcs] at h
      exact Option.noConfusion h
    | cons f0 fs0 =>
      rw [hcs] at h
      unfold maxBySize at h
      have hfold := Option.some.inj h
      have hmem := (foldl_maxBySize_spec fs0 f0).1
      rw [hfold] at hmem
      rw [← hcs] at hmem
      exact (List.mem_filter.mp hmem).2

theorem compileStage_preserves_snapshot (setup : String) (names : List (List Char))
    (fs : FS) (p : List Char) :
    compileStage setup names fs (snapshotPath p) = fs (snapshotPath p) := by
  unfold compileStage
  cases hf : find_main_tex_file (buildTexFiles names fs) with
  | none => rfl
  | some f =>
    have htex : texCandidate f.name = true := find_main_texCandidate _ f hf
    have hend : endsWithTex f.name = true := by
      unfold texCandidate at htex
      exact (Bool.and_eq_true _ _).mp htex |>.1
    show fsWrite fs f.name (add_custom_font_to_tex setup ((fs f.name).getD []))
        (snapshotPath p) = fs (snapshotPath p)
    unfold fsWrite
    rw [if_neg (Ne.symm (tex_ne_snapshotPath hend))]

theorem discover_foldl_snapshot (k : Nat) :
    ∀ (names : List (List Char)) (st : FS × List Job) (p : List Char) (lines : List String),
      p ∈ names → names.Nodup → endsWithTex p = true → st.1 p = some lines →
      (names.foldl (discoverStep k) st).1 (snapshotPath p) = some lines := by
  intro names
  induction names with
  | nil => intro st p lines hp; cases hp
  | cons n ns ih =>
    intro st p lines hp hnd htex hread
    rw [List.foldl_cons]
    rcases List.mem_cons.mp hp with h0 | h0
    · have hnotin : n ∉ ns := (List.nodup_cons.mp hnd).1
      have hstep : (discoverStep k st n).1 (snapshotPath n) = some lines := by
        unfold discoverStep
        rw [h0] at htex hread
        simp only [htex, if_true]
        rw [hread]
        show fsWrite (fsWrite st.1 (snapshotPath n) lines) n lines (snapshotPath n) = some lines
        unfold fsWrite
        rw [if_neg (Ne.symm (tex_ne_snapshotPath htex)), if_pos rfl]
      rw [h0]
      rw [discover_foldl_preserves k ns (discoverStep k st n) (snapshotPath n) ?_, hstep]
      intro m hm hmt
      constructor
      · exact Ne.symm (tex_ne_snapshotPath hmt)
      · intro hcon
        have heq : n = m := snapshotPath_inj hcon
        exact hnotin (heq ▸ hm)
    · have hnd' : ns.Nodup := (List.nodup_cons.mp hnd).2
      have hnin : n ∉ ns := (List.nodup_cons.mp hnd).1
      have hpn : p ≠ n := fun hc => hnin (hc ▸ h0)
      have hps : p ≠ snapshotPath n := tex_ne_snapshotPath htex
      have hstep : (discoverStep k st n).1 p = some lines := by
        rw [discoverStep_preserves k st n p hpn hps]
        exact hread
      exact ih (discoverStep k st n) p lines h0 hnd' htex hstep

/-- C8: for every eligible `.tex` document discovered by the rewriter, a
copy of its original line sequence is written to the `_original`
snapshot path before the document is rewritten, and neither the
translation write-back nor the compilation stage ever modifies the
snapshot: after the whole pipeline the snapshot still holds exactly the
original lines. -/
theorem C8_snapshot_preserved (oracle : List Char → Nat → Nat → TransResp) (k : Nat)
    (names names2 : List (List Char)) (setup : String) (fs0 : FS)
    (p : List Char) (lines : List String)
    (hp : p ∈ names) (hnd : names.Nodup)
    (htex : endsWithTex p = true) (hread : fs0 p = some lines) :
    translatePipeline oracle k names names2 setup fs0 (snapshotPath p) = some lines := by
  unfold translatePipeline
  rw [compileStage_preserves_snapshot]
  unfold process_and_translate_tex_files
  rw [foldl_fsWrite_preserves (fun q => docContent (pipelineResults oracle k names fs0) q)]
  · exact discover_foldl_snapshot k names (fs0, []) p lines hp hnd htex hread
  · intro p' hp'
    rcases List.mem_map.mp (firstOccur_subset _ p' hp') with ⟨r, hr, hrp⟩
    rcases List.mem_map.mp hr with ⟨j, hj, hjr⟩
    have hjt : endsWithTex j.1 = true :=
      discover_foldl_jobs_tex k names (fs0, [])
        (fun j0 hj0 => absurd hj0 (List.not_mem_nil _)) j hj
    have hr1 : r.1 = j.1 := by
      rw [← hjr]
      exact translate_chunk_fst _ _ _ _
    rw [← hrp, hr1]
    exact Ne.symm (tex_ne_snapshotPath hjt)

/-- C8 witness: a one-document run with an always-failing transformer
still leaves the untouched original lines at `doc.tex_original`. -/
theorem C8_witness :
    translatePipeline (fun _ _ => wBad) 2 [String.data "doc.tex"] [String.data "doc.tex"]
      "S" wFS8 (snapshotPath (String.data "doc.tex")) = some ["A\n", "B\n", "C\n"] :=
  C8_snapshot_preserved (fun _ _ => wBad) 2 [String.data "doc.tex"] [String.data "doc.tex"]
    "S" wFS8 (String.data "doc.tex") ["A\n", "B\n", "C\n"]
    (by decide) (by decide) (by decide) rfl

end ArxivTranslator
